import Mathlib

/-!
Verification of the chi-migration snapshot-processing core
(`src/tools/snapshot.py`) against its natural-language specification.

The Python code is shallowly embedded: byte strings become `List Nat`
(each entry one byte value), Python dicts become association lists with
latest-binding-wins lookup, the external cryptographic primitives
(keccak-256, sha-256, ripemd-160, WIF decoding, secp256k1 key derivation,
address decoders) are parameters, since the source calls them as opaque
library routines, and Python exceptions become `Option`/`Except` results.
-/

set_option synthInstance.maxSize 512

namespace ChiMigration

/-- Byte strings (Python `bytes`), one list entry per byte. -/
abbrev Bytes := List Nat

/-- A processed UTXO entry, as built by `processRow` in `snapshot.py`:
the dict with keys `txid`, `vout`, `amount`, `pubkeyhash`, `address`. -/
structure Output where
  txid : Bytes
  vout : Nat
  amount : Nat
  pubkeyhash : Bytes
  address : Option String
deriving DecidableEq, Repr

/-- Placeholder used as the default for out-of-range list reads; the
theorems only ever read it under in-range hypotheses. -/
def dummyOutput : Output :=
  { txid := [], vout := 0, amount := 0, pubkeyhash := [], address := none }

/-- The 32-zero-byte padding digest, `b"\x00" * 32` in the source. -/
def zero32 : Bytes := List.replicate 32 0

/-- Fixed-width big-endian encoding of a natural number, the encoding
`Web3.solidity_keccak` applies to a `uint256` argument (width 32). -/
def beBytes : Nat → Nat → Bytes
  | 0, _ => []
  | w + 1, v => beBytes w (v / 256) ++ [v % 256]

/-- The number a big-endian byte string denotes. -/
def fromBE (bs : Bytes) : Nat := bs.foldl (fun a b => a * 256 + b) 0

/-- The packed preimage `abi.encodePacked(bytes32, uint256, uint256, bytes20)`
that `computeLeafHash` feeds to keccak-256: `txid` as-is, `vout` and
`amount` as 32-byte big-endian words, `pubkeyhash` as-is. -/
def leafPreimage (o : Output) : Bytes :=
  o.txid ++ beBytes 32 o.vout ++ beBytes 32 o.amount ++ o.pubkeyhash

/-- `computeLeafHash` from `snapshot.py`: `Web3.solidity_keccak` over the
packed fields.  `keccak` is the keccak-256 primitive, kept as a parameter. -/
def computeLeafHash (keccak : Bytes → Bytes) (o : Output) : Bytes :=
  keccak (leafPreimage o)

/-- Python `bytes` comparison `a < b`: byte-wise lexicographic, a strict
prefix is smaller. -/
def bytesLt : Bytes → Bytes → Bool
  | _, [] => false
  | [], _ :: _ => true
  | a :: as, b :: bs => a < b || (a == b && bytesLt as bs)

/-- `hashPairs` from `snapshot.py`: hash the two child digests in sorted
order (OpenZeppelin MerkleProof convention). -/
def hashPairs (keccak : Bytes → Bytes) (pair : Bytes × Bytes) : Bytes :=
  if bytesLt pair.1 pair.2 then keccak (pair.1 ++ pair.2)
  else keccak (pair.2 ++ pair.1)

/-- The adjacent pairs `(lastLevel[i], lastLevel[i+1])` for even `i`, as
built by the list comprehension in `buildMerkle`.  On the even-length
levels the source applies it to, this is the exact same pairing. -/
def pairUp : List Bytes → List (Bytes × Bytes)
  | a :: b :: rest => (a, b) :: pairUp rest
  | _ => []

/-- One round of `buildMerkle`'s level loop: pair the current level and
hash each pair. -/
def nextLevel (keccak : Bytes → Bytes) (lvl : List Bytes) : List Bytes :=
  (pairUp lvl).map (hashPairs keccak)

/-- The doubling loop of `buildMerkle` (`nextPowerOfTwo = 1; while
nextPowerOfTwo < len: nextPowerOfTwo <<= 1`), with explicit fuel so the
recursion is structural; fuel `n` is enough, see `nextPowTwoAux_ge`. -/
def nextPowTwoAux : Nat → Nat → Nat → Nat
  | 0, _, acc => acc
  | fuel + 1, n, acc => if acc < n then nextPowTwoAux fuel n (acc * 2) else acc

/-- The padded leaf count computed by `buildMerkle`: the doubling loop
started at 1. -/
def nextPowerOfTwo (n : Nat) : Nat := nextPowTwoAux n n 1

/-- The `while True` level loop of `buildMerkle`: starting from the padded
leaf level, keep appending `nextLevel` until a level has one element.
(The source breaks on `len == 1`; length 0 cannot occur there because the
leaf level is padded to length at least 1.) -/
def levelsFrom (keccak : Bytes → Bytes) (lvl : List Bytes) : List (List Bytes) :=
  if h : lvl.length ≤ 1 then [lvl]
  else lvl :: levelsFrom keccak (nextLevel keccak lvl)
termination_by lvl.length
decreasing_by
  simp only [nextLevel, List.length_map]
  have key : ∀ fuel l, l.length ≤ fuel → (pairUp l).length = l.length / 2 := by
    intro fuel
    induction fuel with
    | zero =>
      intro l hl
      have : l = [] := List.eq_nil_of_length_eq_zero (Nat.le_zero.mp hl)
      simp [this, pairUp]
    | succ fuel ih =>
      intro l hl
      cases l with
      | nil => simp [pairUp]
      | cons a t =>
        cases t with
        | nil => simp [pairUp]
        | cons b rest =>
          have hr : rest.length ≤ fuel := by
            simp only [List.length_cons] at hl; omega
          simp only [pairUp, List.length_cons, ih rest hr]
          omega
  rw [key lvl.length lvl (Nat.le_refl _)]
  omega

/-- `UtxoSet.buildMerkle`: hash the leaves in output order, pad with zero
digests to the next power of two, then fold levels up to the root.
Returns the `self.levels` list (deepest level first). -/
def buildMerkle (keccak : Bytes → Bytes) (outputs : List Output) : List (List Bytes) :=
  let leafHashes := outputs.map (computeLeafHash keccak)
  let n := nextPowerOfTwo leafHashes.length
  levelsFrom keccak (leafHashes ++ List.replicate (n - leafHashes.length) zero32)

/-- `self.root`: the single element of the last level
(`[self.root] = self.levels[-1]`). -/
def rootOf (levels : List (List Bytes)) : Bytes := (levels.getLastD []).getD 0 []

/-- The Merkle root of an output list, as `UtxoSet` computes it. -/
def merkleRoot (keccak : Bytes → Bytes) (outputs : List Output) : Bytes :=
  rootOf (buildMerkle keccak outputs)

/-- The loop body of `UtxoSet.getProof`, walking the given levels: append
the sibling digest (`lvl[index + 1]` for even `index`, `lvl[index - 1]`
for odd) and halve the index.  Out-of-range reads (which the source would
raise on) return `zero32`; `proofInBounds` below records that they never
happen on the levels `buildMerkle` produces. -/
def getProofAux : List (List Bytes) → Nat → List Bytes
  | [], _ => []
  | lvl :: rest, index =>
    (if index % 2 = 0 then lvl.getD (index + 1) zero32
     else lvl.getD (index - 1) zero32) :: getProofAux rest (index / 2)

/-- `UtxoSet.getProof`: the sibling path over all levels but the root
level (`self.levels[:-1]`). -/
def getProof (levels : List (List Bytes)) (index : Nat) : List Bytes :=
  getProofAux levels.dropLast index

/-- Every sibling access `getProof` performs on the given levels is within
bounds. -/
def proofInBounds : List (List Bytes) → Nat → Bool
  | [], _ => true
  | lvl :: rest, index =>
    decide ((if index % 2 = 0 then index + 1 else index - 1) < lvl.length)
      && proofInBounds rest (index / 2)

/-! ## Dictionaries and the lookup indices

Python dicts are modeled as association lists where a new binding is
prepended and lookup returns the most recent binding — the same lookup
semantics as dict assignment/overwrite. -/

/-- Dict lookup `d[k]` (as `Option`, `none` for a missing key; also models
the `k in d` test via `Option.isSome`). -/
def aget {K V : Type} [DecidableEq K] : List (K × V) → K → Option V
  | [], _ => none
  | (k, v) :: d, q => if q = k then some v else aget d q

/-- The loop body of `UtxoSet.buildIndices`, recursing over the outputs
with the running `enumerate` index `ind`, the `lastTxid` register, and the
two dicts built so far (`self.indexTxid`, `self.indexAddress`). -/
def buildIndicesAux :
    List Output → Nat → Option Bytes → List (Bytes × Nat) →
    List (String × List Nat) → List (Bytes × Nat) × List (String × List Nat)
  | [], _, _, ti, ai => (ti, ai)
  | o :: rest, ind, lastTxid, ti, ai =>
    buildIndicesAux rest (ind + 1)
      (if some o.txid ≠ lastTxid then some o.txid else lastTxid)
      (if some o.txid ≠ lastTxid then (o.txid, ind) :: ti else ti)
      (match o.address with
       | some a => (a, ((aget ai a).getD []) ++ [ind]) :: ai
       | none => ai)

/-- `UtxoSet.buildIndices`: the `(self.indexTxid, self.indexAddress)` pair
built by one scan of `self.outputs` with `lastTxid` starting at `None`. -/
def buildIndices (outputs : List Output) :
    List (Bytes × Nat) × List (String × List Nat) :=
  buildIndicesAux outputs 0 none [] []

/-- The `while True` scan loop of `UtxoSet.lookupOutput`, starting at
index `ind`.  `Except.error ()` is a failure of the `assert
self.outputs[ind]["txid"] == txid` statement (or of the list access
itself); `Except.ok` is the method's return value. -/
def lookupScan (outputs : List Output) (txid : Bytes) (vout : Nat) (ind : Nat) :
    Except Unit (Option Nat) :=
  if h : ind < outputs.length then
    if (outputs.getD ind dummyOutput).txid ≠ txid then Except.error ()
    else if (outputs.getD ind dummyOutput).vout = vout then Except.ok (some ind)
    else if h2 : ind + 1 < outputs.length then
      if (outputs.getD (ind + 1) dummyOutput).txid ≠ txid then Except.ok none
      else lookupScan outputs txid vout (ind + 1)
    else Except.ok none
  else Except.error ()
termination_by outputs.length - ind

/-- `UtxoSet.lookupOutput`: return `None` at once for an unknown txid,
else scan forward from `self.indexTxid[txid]`. -/
def lookupOutput (outputs : List Output) (txid : Bytes) (vout : Nat) :
    Except Unit (Option Nat) :=
  match aget (buildIndices outputs).1 txid with
  | none => Except.ok none
  | some ind => lookupScan outputs txid vout ind

/-- `UtxoSet.lookupAddress`: `self.indexAddress[addr]` if present, else
the empty list. -/
def lookupAddress (outputs : List Output) (addr : String) : List Nat :=
  (aget (buildIndices outputs).2 addr).getD []

/-! ## The record normalizer -/

/-- One row of the CSV dump, the string fields `processRow` reads. -/
structure Row where
  type : String
  address : String
  txid : String
  vout : String
  amount : String

/-- The external decoding routines `processRow` calls, kept abstract: the
`bip_utils` address decoders (`none` models their `ValueError` on a
malformed address) and the `web3` string conversions. -/
structure Decoders where
  p2pkhDecode : String → Option Bytes
  p2wpkhDecode : String → Option Bytes
  hexToBytes : String → Bytes
  parseInt : String → Nat

/-- `processRow` from `snapshot.py`: decode the pubkeyhash for the three
single-key types, mark every other type nonstandard with a zero
pubkeyhash and no address.  `none` models the decoder exception
propagating out of the helper. -/
def processRow (d : Decoders) (row : Row) : Option Output :=
  if row.type = "p2pk" ∨ row.type = "p2pkh" then
    (d.p2pkhDecode row.address).map fun pkh =>
      { txid := d.hexToBytes row.txid, vout := d.parseInt row.vout,
        amount := d.parseInt row.amount, pubkeyhash := pkh,
        address := some row.address }
  else if row.type = "p2wpkh" then
    (d.p2wpkhDecode row.address).map fun pkh =>
      { txid := d.hexToBytes row.txid, vout := d.parseInt row.vout,
        amount := d.parseInt row.amount, pubkeyhash := pkh,
        address := some row.address }
  else
    some { txid := d.hexToBytes row.txid, vout := d.parseInt row.vout,
           amount := d.parseInt row.amount,
           pubkeyhash := List.replicate 20 0, address := none }

/-! ## The claim signer -/

/-- A secp256k1 public key as `signClaim` uses it: its serialization in
compressed (`true`) or uncompressed (`false`) form, and its point
coordinates. -/
structure PubKey where
  fmt : Bool → Bytes
  point : Nat × Nat

/-- The EIP-712 message `signClaim` builds (domain fields and
`PubKeyClaim` payload fields, exactly the ones the source fills in). -/
structure TypedMessage where
  name : String
  version : String
  chainId : Nat
  verifyingContract : String
  txid : Bytes
  vout : Nat
  recipient : String
deriving DecidableEq

/-- The cryptographic library routines `signClaim` calls, kept abstract:
WIF decoding (`none` models the `bip_utils` exception on a bad key),
secp256k1 public-key derivation, the two hash functions of hash160, and
the EIP-712 encode-and-sign step (`encode_structured_data` plus
`Account.sign_message`). -/
structure Crypto where
  wifDecode : String → Option Bytes
  pubkeyFromSecret : Bytes → PubKey
  sha256 : Bytes → Bytes
  ripemd160 : Bytes → Bytes
  signTypedData : TypedMessage → Bytes → Bytes

/-- hash160: SHA-256 then RIPEMD-160, as computed inline in `signClaim`. -/
def hash160 (c : Crypto) (b : Bytes) : Bytes := c.ripemd160 (c.sha256 b)

/-- How `signClaim` can fail before producing a signature. -/
inductive ClaimError where
  | wifDecodeError : ClaimError
  | keyMismatch : ClaimError
deriving DecidableEq

/-- `UtxoSet.signClaim`: decode the WIF key, derive the public key, accept
iff the hash160 of the compressed or the uncompressed serialization equals
the output's pubkeyhash (the source's `for compressed in [True, False]`
loop with `break`), then sign the EIP-712 `PubKeyClaim` message.  Returns
the point coordinates and signature, or the error raised. -/
def signClaim (c : Crypto) (outputs : List Output) (index : Nat) (wif : String)
    (recipient : String) (verifyingContract : String) (chainId : Nat) :
    Except ClaimError (Nat × Nat × Bytes) :=
  match c.wifDecode wif with
  | none => Except.error ClaimError.wifDecodeError
  | some privKeyBytes =>
    let pubkey := c.pubkeyFromSecret privKeyBytes
    let o := outputs.getD index dummyOutput
    let found := hash160 c (pubkey.fmt true) = o.pubkeyhash
      ∨ hash160 c (pubkey.fmt false) = o.pubkeyhash
    if found then
      Except.ok (pubkey.point.1, pubkey.point.2,
        c.signTypedData
          { name := "ChiMigration", version := "1", chainId := chainId,
            verifyingContract := verifyingContract, txid := o.txid,
            vout := o.vout, recipient := recipient }
          privKeyBytes)
    else Except.error ClaimError.keyMismatch

/-! ## Spec-side predicates -/

/-- Outputs sharing a txid sit in one contiguous block: any output between
two equal-txid outputs carries that same txid.  This is the upstream
ordering guarantee the spec's §3 invariant and §9 open question describe. -/
abbrev GroupedByTxid (outputs : List Output) : Prop :=
  ∀ i, i < outputs.length → ∀ j, j < outputs.length → ∀ k, k < outputs.length →
    (i ≤ j ∧ j ≤ k ∧
      (outputs.getD i dummyOutput).txid = (outputs.getD k dummyOutput).txid) →
    (outputs.getD j dummyOutput).txid = (outputs.getD i dummyOutput).txid

/-- The `(txid, vout)` pairs are unique across the output sequence (spec
§3 invariant). -/
abbrev PairsUnique (outputs : List Output) : Prop :=
  ∀ i, i < outputs.length → ∀ j, j < outputs.length →
    (outputs.getD i dummyOutput).txid = (outputs.getD j dummyOutput).txid →
    (outputs.getD i dummyOutput).vout = (outputs.getD j dummyOutput).vout →
    i = j

/-- Specification of the address index contents: the indices (offset by
`ind`) of the outputs carrying address `a`, in encounter order. -/
def addrIndices : List Output → Nat → String → List Nat
  | [], _, _ => []
  | o :: rest, ind, a =>
    (if o.address = some a then [ind] else []) ++ addrIndices rest (ind + 1) a

/-! ## Concrete instantiations used by the closed (witness and
counterexample) theorems -/

/-- A stand-in for the keccak-256 primitive on concrete inputs (the
theorems hold for an arbitrary hash function). -/
def testHash : Bytes → Bytes :=
  fun b => List.replicate 31 0 ++ [b.foldl (fun a x => (a + 31 * x + 7) % 256) 3]

/-- A sample output with a one-byte txid tag. -/
def exOut (t v : Nat) (a : Option String) : Output :=
  { txid := [t], vout := v, amount := 10 * v + 1,
    pubkeyhash := List.replicate 20 1, address := a }

/-- Sample crypto primitives for the `signClaim` witness. -/
def testCrypto : Crypto :=
  { wifDecode := fun s => if s = "badwif" then none else some [5]
    pubkeyFromSecret := fun b => { fmt := fun c => (if c then 2 else 4) :: b, point := (7, 9) }
    sha256 := fun b => 1 :: b
    ripemd160 := fun b => b.take 20
    signTypedData := fun _ k => 9 :: k }

/-- Sample decoders for the `processRow` theorems; `"zeroaddr"` is the
(perfectly well-formed) base58check address whose payload is the 20-zero-
byte hash160, which `bip_utils` decodes like any other address. -/
def testDecoders : Decoders :=
  { p2pkhDecode := fun a =>
      if a = "zeroaddr" then some (List.replicate 20 0)
      else if a = "malformed" then none
      else some (List.replicate 20 2)
    p2wpkhDecode := fun _ => some (List.replicate 20 3)
    hexToBytes := fun _ => List.replicate 32 4
    parseInt := fun _ => 11 }

/-! ## Lemmas: the padding-size loop -/

theorem nextPowTwoAux_ge_acc : ∀ fuel n acc, acc ≤ nextPowTwoAux fuel n acc
  | 0, _, _ => Nat.le_refl _
  | fuel + 1, n, acc => by
    simp only [nextPowTwoAux]
    split
    · exact Nat.le_trans (by omega) (nextPowTwoAux_ge_acc fuel n (acc * 2))
    · exact Nat.le_refl _

theorem nextPowTwoAux_ge : ∀ fuel n acc, 0 < acc → n ≤ fuel + acc →
    n ≤ nextPowTwoAux fuel n acc
  | 0, _, _, _, h => by simpa [nextPowTwoAux] using h
  | fuel + 1, n, acc, hpos, h => by
    simp only [nextPowTwoAux]
    split
    · exact nextPowTwoAux_ge fuel n (acc * 2) (by omega) (by omega)
    · omega

theorem nextPowTwoAux_pow : ∀ fuel n acc, (∃ j, acc = 2 ^ j) →
    ∃ k, nextPowTwoAux fuel n acc = 2 ^ k
  | 0, _, _, h => h
  | fuel + 1, n, acc, h => by
    simp only [nextPowTwoAux]
    split
    · refine nextPowTwoAux_pow fuel n (acc * 2) ?_
      obtain ⟨j, rfl⟩ := h
      exact ⟨j + 1, by ring⟩
    · exact h

theorem nextPowTwoAux_le_pow : ∀ fuel n acc m, (∃ j, acc = 2 ^ j) →
    acc ≤ 2 ^ m → n ≤ 2 ^ m → nextPowTwoAux fuel n acc ≤ 2 ^ m
  | 0, _, _, _, _, hacc, _ => hacc
  | fuel + 1, n, acc, m, hpow, hacc, hn => by
    simp only [nextPowTwoAux]
    split
    · obtain ⟨j, rfl⟩ := hpow
      have hjm : j < m := by
        by_contra hc
        have : 2 ^ m ≤ 2 ^ j := Nat.pow_le_pow_right (by omega) (by omega)
        omega
      have hstep : 2 ^ j * 2 ≤ 2 ^ m := by
        calc 2 ^ j * 2 = 2 ^ (j + 1) := by ring
        _ ≤ 2 ^ m := Nat.pow_le_pow_right (by omega) (by omega)
      exact nextPowTwoAux_le_pow fuel n (2 ^ j * 2) m ⟨j + 1, by ring⟩ hstep hn
    · exact hacc

theorem le_nextPowerOfTwo (n : Nat) : n ≤ nextPowerOfTwo n :=
  nextPowTwoAux_ge n n 1 Nat.one_pos (by omega)

theorem one_le_nextPowerOfTwo (n : Nat) : 1 ≤ nextPowerOfTwo n :=
  nextPowTwoAux_ge_acc n n 1

theorem nextPowerOfTwo_pow (n : Nat) : ∃ k, nextPowerOfTwo n = 2 ^ k :=
  nextPowTwoAux_pow n n 1 ⟨0, rfl⟩

theorem nextPowerOfTwo_le_pow (n m : Nat) (h : n ≤ 2 ^ m) :
    nextPowerOfTwo n ≤ 2 ^ m :=
  nextPowTwoAux_le_pow n n 1 m ⟨0, rfl⟩ Nat.one_le_two_pow h

/-! ## Lemmas: pairing a level -/

theorem pairUp_length : ∀ l : List Bytes, (pairUp l).length = l.length / 2
  | [] => by simp [pairUp]
  | [_] => by simp [pairUp]
  | _ :: _ :: rest => by
    simp only [pairUp, List.length_cons, pairUp_length rest]
    omega

theorem pairUp_getD : ∀ (l : List Bytes) (j : Nat), 2 * j + 1 < l.length →
    (pairUp l).getD j ([], []) = (l.getD (2 * j) [], l.getD (2 * j + 1) [])
  | [], j, h => by simp at h
  | [_], j, h => by simp at h
  | a :: b :: rest, 0, _ => by simp [pairUp]
  | a :: b :: rest, j + 1, h => by
    have hr : 2 * j + 1 < rest.length := by
      simp only [List.length_cons] at h; omega
    have heq1 : 2 * (j + 1) = 2 * j + 1 + 1 := by ring
    have heq2 : 2 * (j + 1) + 1 = 2 * j + 1 + 1 + 1 := by ring
    simp only [pairUp, List.getD_cons_succ, heq1, heq2]
    exact pairUp_getD rest j hr

theorem nextLevel_length (keccak : Bytes → Bytes) (lvl : List Bytes) :
    (nextLevel keccak lvl).length = lvl.length / 2 := by
  simp [nextLevel, pairUp_length]

theorem nextLevel_getD (keccak : Bytes → Bytes) (lvl : List Bytes) (j : Nat)
    (h : 2 * j + 1 < lvl.length) :
    (nextLevel keccak lvl).getD j [] =
      hashPairs keccak (lvl.getD (2 * j) [], lvl.getD (2 * j + 1) []) := by
  have hj : j < (pairUp lvl).length := by
    rw [pairUp_length]; omega
  have hj2 : j < (nextLevel keccak lvl).length := by
    rw [nextLevel_length]; omega
  rw [List.getD_eq_getElem _ _ hj2]
  simp only [nextLevel, List.getElem_map]
  rw [← List.getD_eq_getElem (pairUp lvl) ([], []) hj, pairUp_getD lvl j h]

/-! ## Lemmas: sorted-pair hashing -/

theorem bytesLt_asymm : ∀ a b : Bytes, bytesLt a b = true → bytesLt b a = false
  | _, [], h => by simp [bytesLt] at h
  | [], _ :: _, _ => by simp [bytesLt]
  | a :: as, b :: bs, h => by
    simp only [bytesLt, Bool.or_eq_true, Bool.and_eq_true, beq_iff_eq,
      decide_eq_true_eq, Bool.or_eq_false_iff, Bool.and_eq_false_iff,
      decide_eq_false_iff_not, beq_eq_false_iff_ne, ne_eq] at h ⊢
    rcases h with h | ⟨rfl, h⟩
    · exact ⟨by omega, Or.inl (by omega)⟩
    · exact ⟨by omega, Or.inr (bytesLt_asymm as bs h)⟩

theorem bytesLt_antisymm_eq : ∀ a b : Bytes,
    bytesLt a b = false → bytesLt b a = false → a = b
  | [], [], _, _ => rfl
  | _ :: _, [], _, hba => by simp [bytesLt] at hba
  | [], _ :: _, hab, _ => by simp [bytesLt] at hab
  | a :: as, b :: bs, hab, hba => by
    simp only [bytesLt, Bool.or_eq_false_iff, Bool.and_eq_false_iff,
      decide_eq_false_iff_not, beq_eq_false_iff_ne, ne_eq] at hab hba
    obtain ⟨hab1, hab2⟩ := hab
    obtain ⟨hba1, hba2⟩ := hba
    have hev : a = b := by omega
    subst hev
    rcases hab2 with h | h
    · exact absurd rfl h
    · rcases hba2 with h2 | h2
      · exact absurd rfl h2
      · rw [bytesLt_antisymm_eq as bs h h2]

theorem hashPairs_comm (keccak : Bytes → Bytes) (a b : Bytes) :
    hashPairs keccak (a, b) = hashPairs keccak (b, a) := by
  rcases hab : bytesLt a b with _ | _ <;> rcases hba : bytesLt b a with _ | _
  · rw [bytesLt_antisymm_eq a b hab hba]
  · simp [hashPairs, hab, hba]
  · simp [hashPairs, hab, hba]
  · have := bytesLt_asymm a b hab
    rw [this] at hba
    exact absurd hba (by simp)

/-! ## Lemmas: the level loop of buildMerkle -/

theorem levelsFrom_of_le_one (keccak : Bytes → Bytes) (lvl : List Bytes)
    (h : lvl.length ≤ 1) : levelsFrom keccak lvl = [lvl] := by
  rw [levelsFrom]
  simp [h]

theorem levelsFrom_of_ge_two (keccak : Bytes → Bytes) (lvl : List Bytes)
    (h : ¬ lvl.length ≤ 1) :
    levelsFrom keccak lvl = lvl :: levelsFrom keccak (nextLevel keccak lvl) := by
  rw [levelsFrom]
  simp [h]

theorem levelsFrom_ne_nil (keccak : Bytes → Bytes) (lvl : List Bytes) :
    levelsFrom keccak lvl ≠ [] := by
  rw [levelsFrom]
  split <;> simp

theorem levelsFrom_headD (keccak : Bytes → Bytes) (lvl : List Bytes) :
    (levelsFrom keccak lvl).headD [] = lvl := by
  rw [levelsFrom]
  split <;> simp

theorem two_le_two_pow_succ (k : Nat) : 2 ≤ 2 ^ (k + 1) := by
  have h : 2 ^ 1 ≤ 2 ^ (k + 1) := Nat.pow_le_pow_right (by omega) (by omega)
  simpa using h

theorem levelsFrom_length (keccak : Bytes → Bytes) :
    ∀ (k : Nat) (lvl : List Bytes), lvl.length = 2 ^ k →
      (levelsFrom keccak lvl).length = k + 1 := by
  intro k
  induction k with
  | zero =>
    intro lvl h
    rw [levelsFrom_of_le_one _ _ (by omega)]
    rfl
  | succ k ih =>
    intro lvl h
    have h2 : ¬ lvl.length ≤ 1 := by
      have := two_le_two_pow_succ k
      omega
    have hnl : (nextLevel keccak lvl).length = 2 ^ k := by
      rw [nextLevel_length, h, Nat.pow_succ]
      omega
    rw [levelsFrom_of_ge_two _ _ h2, List.length_cons, ih _ hnl]

theorem levelsFrom_getD_length (keccak : Bytes → Bytes) :
    ∀ (k : Nat) (lvl : List Bytes), lvl.length = 2 ^ k → ∀ t, t ≤ k →
      ((levelsFrom keccak lvl).getD t []).length = 2 ^ (k - t) := by
  intro k
  induction k with
  | zero =>
    intro lvl h t ht
    have ht0 : t = 0 := by omega
    subst ht0
    rw [levelsFrom_of_le_one _ _ (by omega)]
    simpa using h
  | succ k ih =>
    intro lvl h t ht
    have h2 : ¬ lvl.length ≤ 1 := by
      have := two_le_two_pow_succ k
      omega
    have hnl : (nextLevel keccak lvl).length = 2 ^ k := by
      rw [nextLevel_length, h, Nat.pow_succ]
      omega
    rw [levelsFrom_of_ge_two _ _ h2]
    cases t with
    | zero => simpa using h
    | succ t =>
      rw [List.getD_cons_succ, ih _ hnl t (by omega)]
      congr 1
      omega

theorem rootOf_cons (a : List Bytes) (L : List (List Bytes)) (h : L ≠ []) :
    rootOf (a :: L) = rootOf L := by
  cases L with
  | nil => exact absurd rfl h
  | cons b bs => simp [rootOf, List.getLastD_cons]

theorem getLastD_cons_ne_nil (a : List Bytes) (L : List (List Bytes)) (h : L ≠ []) :
    (a :: L).getLastD [] = L.getLastD [] := by
  cases L with
  | nil => exact absurd rfl h
  | cons b bs => simp [List.getLastD_cons]

theorem levelsFrom_last_length (keccak : Bytes → Bytes) (k : Nat)
    (lvl : List Bytes) (h : lvl.length = 2 ^ k) :
    ((levelsFrom keccak lvl).getLastD []).length = 1 := by
  induction k generalizing lvl with
  | zero =>
    rw [levelsFrom_of_le_one _ _ (by omega)]
    simpa [List.getLastD_cons] using h
  | succ k ih =>
    have h2 : ¬ lvl.length ≤ 1 := by
      have := two_le_two_pow_succ k
      omega
    have hnl : (nextLevel keccak lvl).length = 2 ^ k := by
      rw [nextLevel_length, h, Nat.pow_succ]
      omega
    rw [levelsFrom_of_ge_two _ _ h2,
      getLastD_cons_ne_nil _ _ (levelsFrom_ne_nil keccak _)]
    exact ih _ hnl

theorem getProofAux_length : ∀ (ls : List (List Bytes)) (i : Nat),
    (getProofAux ls i).length = ls.length
  | [], _ => rfl
  | lvl :: rest, i => by
    simp only [getProofAux, List.length_cons, getProofAux_length rest]

theorem dropLast_cons_ne_nil {α : Type} (a : α) (L : List α) (h : L ≠ []) :
    (a :: L).dropLast = a :: L.dropLast := by
  cases L with
  | nil => exact absurd rfl h
  | cons b bs => exact List.dropLast_cons₂

theorem fold_getProof_levelsFrom (keccak : Bytes → Bytes) :
    ∀ (k : Nat) (lvl : List Bytes), lvl.length = 2 ^ k → ∀ i, i < lvl.length →
      List.foldl (fun a b => hashPairs keccak (a, b)) (lvl.getD i [])
        (getProofAux (levelsFrom keccak lvl).dropLast i)
      = rootOf (levelsFrom keccak lvl) := by
  intro k
  induction k with
  | zero =>
    intro lvl h i hi
    have hi0 : i = 0 := by omega
    subst hi0
    rw [levelsFrom_of_le_one _ _ (by omega)]
    simp [getProofAux, rootOf, List.getLastD_cons]
  | succ k ih =>
    intro lvl h i hi
    have h2 : ¬ lvl.length ≤ 1 := by
      have := two_le_two_pow_succ k
      omega
    have hnl : (nextLevel keccak lvl).length = 2 ^ k := by
      rw [nextLevel_length, h, Nat.pow_succ]
      omega
    have hL := levelsFrom_ne_nil keccak (nextLevel keccak lvl)
    have hlen2 : lvl.length = 2 ^ k * 2 := by rw [h, Nat.pow_succ]
    rw [levelsFrom_of_ge_two _ _ h2, dropLast_cons_ne_nil _ _ hL]
    simp only [getProofAux]
    rw [List.foldl_cons]
    have hcomb : hashPairs keccak (lvl.getD i [],
        if i % 2 = 0 then lvl.getD (i + 1) zero32 else lvl.getD (i - 1) zero32)
        = (nextLevel keccak lvl).getD (i / 2) [] := by
      by_cases hpar : i % 2 = 0
      · have hbound : 2 * (i / 2) + 1 < lvl.length := by omega
        rw [nextLevel_getD _ _ _ hbound, show 2 * (i / 2) = i by omega, if_pos hpar]
        congr 2
        rw [List.getD_eq_getElem _ _ (by omega), List.getD_eq_getElem _ _ (by omega)]
      · have hbound : 2 * (i / 2) + 1 < lvl.length := by omega
        rw [nextLevel_getD _ _ _ hbound, show 2 * (i / 2) = i - 1 by omega,
          show i - 1 + 1 = i by omega, if_neg hpar, hashPairs_comm]
        congr 2
        rw [List.getD_eq_getElem _ _ (by omega), List.getD_eq_getElem _ _ (by omega)]
    rw [hcomb, rootOf_cons _ _ hL]
    exact ih (nextLevel keccak lvl) hnl (i / 2) (by omega)

theorem proofInBounds_levelsFrom (keccak : Bytes → Bytes) :
    ∀ (k : Nat) (lvl : List Bytes), lvl.length = 2 ^ k → ∀ i, i < lvl.length →
      proofInBounds (levelsFrom keccak lvl).dropLast i = true := by
  intro k
  induction k with
  | zero =>
    intro lvl h i hi
    rw [levelsFrom_of_le_one _ _ (by omega)]
    simp [proofInBounds]
  | succ k ih =>
    intro lvl h i hi
    have h2 : ¬ lvl.length ≤ 1 := by
      have := two_le_two_pow_succ k
      omega
    have hnl : (nextLevel keccak lvl).length = 2 ^ k := by
      rw [nextLevel_length, h, Nat.pow_succ]
      omega
    have hL := levelsFrom_ne_nil keccak (nextLevel keccak lvl)
    have hlen2 : lvl.length = 2 ^ k * 2 := by rw [h, Nat.pow_succ]
    rw [levelsFrom_of_ge_two _ _ h2, dropLast_cons_ne_nil _ _ hL]
    simp only [proofInBounds, Bool.and_eq_true, decide_eq_true_eq]
    refine ⟨?_, ih _ hnl (i / 2) (by omega)⟩
    split <;> omega

/-! ## Lemmas: buildMerkle assembly -/

theorem buildMerkle_eq (keccak : Bytes → Bytes) (outputs : List Output) :
    buildMerkle keccak outputs =
      levelsFrom keccak (outputs.map (computeLeafHash keccak) ++
        List.replicate (nextPowerOfTwo outputs.length - outputs.length) zero32) := by
  simp [buildMerkle, List.length_map]

theorem paddedLeaves_length (keccak : Bytes → Bytes) (outputs : List Output) :
    (outputs.map (computeLeafHash keccak) ++
      List.replicate (nextPowerOfTwo outputs.length - outputs.length) zero32).length
      = nextPowerOfTwo outputs.length := by
  have h := le_nextPowerOfTwo outputs.length
  simp only [List.length_append, List.length_map, List.length_replicate]
  omega

theorem paddedLeaves_getD_lt (keccak : Bytes → Bytes) (outputs : List Output)
    (i : Nat) (hi : i < outputs.length) :
    (outputs.map (computeLeafHash keccak) ++
      List.replicate (nextPowerOfTwo outputs.length - outputs.length) zero32).getD i []
      = computeLeafHash keccak (outputs.getD i dummyOutput) := by
  rw [List.getD_append _ _ _ _ (by simpa using hi),
    List.getD_eq_getElem _ _ (by simpa using hi), List.getElem_map,
    ← List.getD_eq_getElem _ dummyOutput hi]

theorem paddedLeaves_getD_ge (keccak : Bytes → Bytes) (outputs : List Output)
    (i : Nat) (hge : outputs.length ≤ i) (hlt : i < nextPowerOfTwo outputs.length) :
    (outputs.map (computeLeafHash keccak) ++
      List.replicate (nextPowerOfTwo outputs.length - outputs.length) zero32).getD i []
      = zero32 := by
  rw [List.getD_append_right _ _ _ _ (by simpa using hge)]
  rw [List.getD_eq_getElem _ _ (by simp; omega)]
  simp

/-! ## Claim C1 -/

/-- C1: for every index `i` in `[0, len(outputs))`, folding the leaf digest
of output `i` with the elements of `getProof(i)` in order, combining at each
step by sorted-pair keccak-256 hashing (`hashPairs`), yields exactly the
Merkle root (the single element of the last level). -/
theorem c1_merkle_proof_roundtrip (keccak : Bytes → Bytes)
    (outputs : List Output) (i : Nat) (hi : i < outputs.length) :
    List.foldl (fun a b => hashPairs keccak (a, b))
      (computeLeafHash keccak (outputs.getD i dummyOutput))
      (getProof (buildMerkle keccak outputs) i)
    = merkleRoot keccak outputs := by
  obtain ⟨k, hk⟩ := nextPowerOfTwo_pow outputs.length
  have hplen := paddedLeaves_length keccak outputs
  have hlen : (outputs.map (computeLeafHash keccak) ++
      List.replicate (nextPowerOfTwo outputs.length - outputs.length) zero32).length
      = 2 ^ k := by rw [hplen, hk]
  have hi2 : i < (outputs.map (computeLeafHash keccak) ++
      List.replicate (nextPowerOfTwo outputs.length - outputs.length) zero32).length := by
    rw [hplen]
    exact Nat.lt_of_lt_of_le hi (le_nextPowerOfTwo _)
  have hleaf := paddedLeaves_getD_lt keccak outputs i hi
  rw [merkleRoot, buildMerkle_eq, getProof, ← hleaf]
  exact fold_getProof_levelsFrom keccak k _ hlen i hi2

/-- Witness for C1: a concrete three-output snapshot, index 1. -/
theorem c1_merkle_proof_roundtrip_witness :
    1 < [exOut 1 0 none, exOut 1 1 none, exOut 2 0 none].length ∧
    List.foldl (fun a b => hashPairs testHash (a, b))
      (computeLeafHash testHash
        ([exOut 1 0 none, exOut 1 1 none, exOut 2 0 none].getD 1 dummyOutput))
      (getProof (buildMerkle testHash [exOut 1 0 none, exOut 1 1 none, exOut 2 0 none]) 1)
    = merkleRoot testHash [exOut 1 0 none, exOut 1 1 none, exOut 2 0 none] :=
  ⟨by decide, c1_merkle_proof_roundtrip testHash _ 1 (by decide)⟩

/-! ## Claim C4 -/

/-- C4: `levels[0]` has the smallest power-of-two length that is at least
`len(outputs)` (with minimum 1, as a power of two is at least 1), entries of
`levels[0]` beyond `len(outputs)` are exactly 32 zero bytes, each subsequent
level has exactly half the length of the previous one, the last level has
exactly one element, and for zero outputs the tree is the single zero digest
and the root equals that zero digest. -/
theorem c4_buildMerkle_shape (keccak : Bytes → Bytes) (outputs : List Output) :
    (∃ k, ((buildMerkle keccak outputs).headD []).length = 2 ^ k)
    ∧ outputs.length ≤ ((buildMerkle keccak outputs).headD []).length
    ∧ (∀ m, (∃ j, m = 2 ^ j) → outputs.length ≤ m →
        ((buildMerkle keccak outputs).headD []).length ≤ m)
    ∧ (∀ i, outputs.length ≤ i → i < ((buildMerkle keccak outputs).headD []).length →
        ((buildMerkle keccak outputs).headD []).getD i [] = zero32)
    ∧ (∀ t, t + 1 < (buildMerkle keccak outputs).length →
        2 * ((buildMerkle keccak outputs).getD (t + 1) []).length
          = ((buildMerkle keccak outputs).getD t []).length)
    ∧ ((buildMerkle keccak outputs).getLastD []).length = 1
    ∧ (outputs = [] →
        buildMerkle keccak outputs = [[zero32]] ∧ merkleRoot keccak outputs = zero32) := by
  obtain ⟨k, hk⟩ := nextPowerOfTwo_pow outputs.length
  have hplen := paddedLeaves_length keccak outputs
  have hlen : (outputs.map (computeLeafHash keccak) ++
      List.replicate (nextPowerOfTwo outputs.length - outputs.length) zero32).length
      = 2 ^ k := by rw [hplen, hk]
  have hhead : (buildMerkle keccak outputs).headD []
      = outputs.map (computeLeafHash keccak) ++
        List.replicate (nextPowerOfTwo outputs.length - outputs.length) zero32 := by
    rw [buildMerkle_eq]
    exact levelsFrom_headD _ _
  have hlevlen : (buildMerkle keccak outputs).length = k + 1 := by
    rw [buildMerkle_eq]
    exact levelsFrom_length _ k _ hlen
  refine ⟨⟨k, by rw [hhead, hlen]⟩, ?_, ?_, ?_, ?_, ?_, ?_⟩
  · rw [hhead, hplen]
    exact le_nextPowerOfTwo _
  · intro m hm hge
    obtain ⟨j, rfl⟩ := hm
    rw [hhead, hplen]
    exact nextPowerOfTwo_le_pow _ _ hge
  · intro i hge hlt
    rw [hhead] at hlt ⊢
    rw [hplen] at hlt
    exact paddedLeaves_getD_ge keccak outputs i hge hlt
  · intro t ht
    rw [hlevlen] at ht
    have h1 : ((buildMerkle keccak outputs).getD (t + 1) []).length = 2 ^ (k - (t + 1)) := by
      rw [buildMerkle_eq]
      exact levelsFrom_getD_length _ k _ hlen (t + 1) (by omega)
    have h2 : ((buildMerkle keccak outputs).getD t []).length = 2 ^ (k - t) := by
      rw [buildMerkle_eq]
      exact levelsFrom_getD_length _ k _ hlen t (by omega)
    rw [h1, h2, show k - t = (k - (t + 1)) + 1 by omega, Nat.pow_succ]
    ring
  · rw [buildMerkle_eq]
    exact levelsFrom_last_length _ k _ hlen
  · intro h0
    subst h0
    constructor
    · simp [buildMerkle, nextPowerOfTwo, nextPowTwoAux, levelsFrom]
    · simp [merkleRoot, buildMerkle, nextPowerOfTwo, nextPowTwoAux, levelsFrom, rootOf,
        List.getLastD_cons]

/-! ## Claim C9 -/

/-- C9: for every index `i` within the padded leaf level (including padding
positions at or beyond `len(outputs)`), every sibling access `getProof(i)`
performs (position `i XOR 1`, i.e. `i+1`/`i-1`, in each non-root level, with
the index then halved) stays within bounds, every non-root level has even
length, and the returned proof has length `len(levels) - 1`. -/
theorem c9_getProof_in_bounds (keccak : Bytes → Bytes) (outputs : List Output)
    (i : Nat) (hi : i < ((buildMerkle keccak outputs).headD []).length) :
    proofInBounds (buildMerkle keccak outputs).dropLast i = true
    ∧ (getProof (buildMerkle keccak outputs) i).length
        = (buildMerkle keccak outputs).length - 1
    ∧ (∀ t, t + 1 < (buildMerkle keccak outputs).length →
        ((buildMerkle keccak outputs).getD t []).length % 2 = 0) := by
  obtain ⟨k, hk⟩ := nextPowerOfTwo_pow outputs.length
  have hplen := paddedLeaves_length keccak outputs
  have hlen : (outputs.map (computeLeafHash keccak) ++
      List.replicate (nextPowerOfTwo outputs.length - outputs.length) zero32).length
      = 2 ^ k := by rw [hplen, hk]
  have hhead : (buildMerkle keccak outputs).headD []
      = outputs.map (computeLeafHash keccak) ++
        List.replicate (nextPowerOfTwo outputs.length - outputs.length) zero32 := by
    rw [buildMerkle_eq]
    exact levelsFrom_headD _ _
  have hlevlen : (buildMerkle keccak outputs).length = k + 1 := by
    rw [buildMerkle_eq]
    exact levelsFrom_length _ k _ hlen
  refine ⟨?_, ?_, ?_⟩
  · rw [buildMerkle_eq]
    refine proofInBounds_levelsFrom keccak k _ hlen i ?_
    rw [hlen, ← hlen, ← hhead]
    exact hi
  · rw [getProof, getProofAux_length, List.length_dropLast]
  · intro t ht
    rw [hlevlen] at ht
    have h2 : ((buildMerkle keccak outputs).getD t []).length = 2 ^ (k - t) := by
      rw [buildMerkle_eq]
      exact levelsFrom_getD_length _ k _ hlen t (by omega)
    rw [h2, show k - t = (k - (t + 1)) + 1 by omega, Nat.pow_succ]
    omega

/-- Witness for C9: the concrete three-output snapshot, queried at the
padding index 3 of the four-leaf bottom level. -/
theorem c9_getProof_in_bounds_witness :
    3 < ((buildMerkle testHash [exOut 1 0 none, exOut 1 1 none, exOut 2 0 none]).headD []).length
    ∧ (proofInBounds (buildMerkle testHash
          [exOut 1 0 none, exOut 1 1 none, exOut 2 0 none]).dropLast 3 = true
      ∧ (getProof (buildMerkle testHash [exOut 1 0 none, exOut 1 1 none, exOut 2 0 none]) 3).length
          = (buildMerkle testHash [exOut 1 0 none, exOut 1 1 none, exOut 2 0 none]).length - 1
      ∧ (∀ t, t + 1 < (buildMerkle testHash [exOut 1 0 none, exOut 1 1 none, exOut 2 0 none]).length →
          ((buildMerkle testHash [exOut 1 0 none, exOut 1 1 none, exOut 2 0 none]).getD t []).length % 2
            = 0)) :=
  have hlt : 3 < ((buildMerkle testHash
      [exOut 1 0 none, exOut 1 1 none, exOut 2 0 none]).headD []).length := by
    rw [buildMerkle_eq, levelsFrom_headD, paddedLeaves_length]
    decide
  ⟨hlt, c9_getProof_in_bounds testHash _ 3 hlt⟩

/-! ## Lemmas: the txid index -/

theorem aget_cons {K V : Type} [DecidableEq K] (k : K) (v : V)
    (d : List (K × V)) (q : K) :
    aget ((k, v) :: d) q = if q = k then some v else aget d q := by
  simp only [aget]

theorem buildIndicesAux_cons (o : Output) (rest : List Output) (ind : Nat)
    (lastTxid : Option Bytes) (ti : List (Bytes × Nat))
    (ai : List (String × List Nat)) :
    buildIndicesAux (o :: rest) ind lastTxid ti ai =
      buildIndicesAux rest (ind + 1) (some o.txid)
        (if some o.txid ≠ lastTxid then (o.txid, ind) :: ti else ti)
        (match o.address with
         | some a => (a, ((aget ai a).getD []) ++ [ind]) :: ai
         | none => ai) := by
  simp only [buildIndicesAux]
  by_cases h : some o.txid = lastTxid
  · rw [if_neg (by simp [h]), ← h]
  · rw [if_pos h]

theorem buildIndicesAux_ti_inv (P : Bytes → Nat → Prop) :
    ∀ (rest : List Output) (ind : Nat) (lastTxid : Option Bytes)
      (ti : List (Bytes × Nat)) (ai : List (String × List Nat)),
      (∀ t i, aget ti t = some i → P t i) →
      (∀ j, j < rest.length → P (rest.getD j dummyOutput).txid (ind + j)) →
      ∀ t i, aget (buildIndicesAux rest ind lastTxid ti ai).1 t = some i → P t i
  | [], _, _, ti, _, hti, _, t, i, h => hti t i (by simpa [buildIndicesAux] using h)
  | o :: rest, ind, lastTxid, ti, ai, hti, hrest, t, i, h => by
    rw [buildIndicesAux_cons] at h
    refine buildIndicesAux_ti_inv P rest (ind + 1) _ _ _ ?_ ?_ t i h
    · intro t2 i2 h2
      by_cases hw : some o.txid ≠ lastTxid
      · rw [if_pos hw, aget_cons] at h2
        by_cases he : t2 = o.txid
        · subst he
          rw [if_pos rfl] at h2
          obtain rfl : ind = i2 := by simpa using h2
          have h0 := hrest 0 (by simp)
          simpa using h0
        · rw [if_neg he] at h2
          exact hti _ _ h2
      · rw [if_neg hw] at h2
        exact hti _ _ h2
    · intro j hj
      have h2 := hrest (j + 1) (by simp only [List.length_cons]; omega)
      rw [List.getD_cons_succ] at h2
      have harith : ind + (j + 1) = ind + 1 + j := by omega
      rw [harith] at h2
      exact h2

theorem buildIndicesAux_ti_absent :
    ∀ (rest : List Output) (ind : Nat) (lastTxid : Option Bytes)
      (ti : List (Bytes × Nat)) (ai : List (String × List Nat)) (t : Bytes),
      aget ti t = none →
      (∀ j, j < rest.length → (rest.getD j dummyOutput).txid ≠ t) →
      aget (buildIndicesAux rest ind lastTxid ti ai).1 t = none
  | [], _, _, ti, _, t, hti, _ => by simpa [buildIndicesAux] using hti
  | o :: rest, ind, lastTxid, ti, ai, t, hti, hrest => by
    rw [buildIndicesAux_cons]
    have hne : (o.txid : Bytes) ≠ t := by
      have h0 := hrest 0 (by simp)
      simpa using h0
    refine buildIndicesAux_ti_absent rest (ind + 1) _ _ _ t ?_ ?_
    · by_cases hw : some o.txid ≠ lastTxid
      · rw [if_pos hw, aget_cons, if_neg (fun he => hne he.symm)]
        exact hti
      · rw [if_neg hw]
        exact hti
    · intro j hj
      have h2 := hrest (j + 1) (by simp only [List.length_cons]; omega)
      rwa [List.getD_cons_succ] at h2

theorem buildIndicesAux_ti_keep :
    ∀ (rest : List Output) (ind : Nat) (lastTxid : Option Bytes)
      (ti : List (Bytes × Nat)) (ai : List (String × List Nat)) (t : Bytes) (v : Nat),
      aget ti t = some v →
      (∀ j, j < rest.length → (rest.getD j dummyOutput).txid = t →
        (j = 0 → lastTxid = some t) ∧
        (0 < j → (rest.getD (j - 1) dummyOutput).txid = t)) →
      aget (buildIndicesAux rest ind lastTxid ti ai).1 t = some v
  | [], _, _, ti, _, t, v, hti, _ => by simpa [buildIndicesAux] using hti
  | o :: rest, ind, lastTxid, ti, ai, t, v, hti, hrun => by
    rw [buildIndicesAux_cons]
    refine buildIndicesAux_ti_keep rest (ind + 1) _ _ _ t v ?_ ?_
    · by_cases he : (o.txid : Bytes) = t
      · have hlast : lastTxid = some t := ((hrun 0 (by simp) (by simpa using he)).1) rfl
        have hw : ¬ some o.txid ≠ lastTxid := by simp [hlast, he]
        rw [if_neg hw]
        exact hti
      · by_cases hw : some o.txid ≠ lastTxid
        · rw [if_pos hw, aget_cons, if_neg (fun h2 => he h2.symm)]
          exact hti
        · rw [if_neg hw]
          exact hti
    · intro j hj hjt
      have horig := hrun (j + 1) (by simp only [List.length_cons]; omega)
        (by rwa [List.getD_cons_succ])
      refine ⟨?_, ?_⟩
      · intro hj0
        subst hj0
        have h2 := horig.2 (by omega)
        simpa using h2
      · intro hjpos
        have h2 := horig.2 (by omega)
        have harith : j + 1 - 1 = j := by omega
        rw [harith] at h2
        cases j with
        | zero => omega
        | succ jq =>
          rw [List.getD_cons_succ] at h2
          simpa using h2

theorem buildIndicesAux_ti_first :
    ∀ (rest : List Output) (ind : Nat) (lastTxid : Option Bytes)
      (ti : List (Bytes × Nat)) (ai : List (String × List Nat)) (t : Bytes) (p : Nat),
      p < rest.length →
      (rest.getD p dummyOutput).txid = t →
      (∀ j, j < p → (rest.getD j dummyOutput).txid ≠ t) →
      (∀ j, p ≤ j → j < rest.length → (rest.getD j dummyOutput).txid = t →
        ∀ jj, p ≤ jj → jj ≤ j → (rest.getD jj dummyOutput).txid = t) →
      aget ti t = none →
      (p = 0 → lastTxid ≠ some t) →
      aget (buildIndicesAux rest ind lastTxid ti ai).1 t = some (ind + p)
  | [], _, _, _, _, _, p, hp, _, _, _, _, _ => by simp at hp
  | o :: rest, ind, lastTxid, ti, ai, t, 0, hp, hpt, _, hgrp, hti, hlast => by
    have hot : (o.txid : Bytes) = t := by simpa using hpt
    have hw : some o.txid ≠ lastTxid := by
      intro hcontra
      exact (hlast rfl) (by rw [← hcontra, hot])
    rw [buildIndicesAux_cons, if_pos hw]
    rw [show ind + 0 = ind by omega]
    refine buildIndicesAux_ti_keep rest (ind + 1) _ _ _ t ind ?_ ?_
    · rw [aget_cons, if_pos hot.symm]
    · intro j hj hjt
      refine ⟨fun _ => by rw [hot], fun hjpos => ?_⟩
      have hocc : ((o :: rest).getD (j + 1) dummyOutput).txid = t := by
        rwa [List.getD_cons_succ]
      have hall := hgrp (j + 1) (by omega) (by simp only [List.length_cons]; omega) hocc
        j (by omega) (by omega)
      cases j with
      | zero => omega
      | succ jq =>
        rw [List.getD_cons_succ] at hall
        simpa using hall
  | o :: rest, ind, lastTxid, ti, ai, t, q + 1, hp, hpt, hfirst, hgrp, hti, _ => by
    have hne : (o.txid : Bytes) ≠ t := by
      have h0 := hfirst 0 (by omega)
      simpa using h0
    rw [buildIndicesAux_cons]
    have harith : ind + (q + 1) = ind + 1 + q := by omega
    rw [harith]
    refine buildIndicesAux_ti_first rest (ind + 1) _ _ _ t q
      (by simp only [List.length_cons] at hp; omega)
      (by rw [List.getD_cons_succ] at hpt; exact hpt)
      ?_ ?_ ?_ ?_
    · intro j hj
      have h2 := hfirst (j + 1) (by omega)
      rwa [List.getD_cons_succ] at h2
    · intro j hqj hjlen hjt jj hqjj hjjle
      have h2 := hgrp (j + 1) (by omega) (by simp only [List.length_cons]; omega)
        (by rwa [List.getD_cons_succ]) (jj + 1) (by omega) (by omega)
      rwa [List.getD_cons_succ] at h2
    · by_cases hw : some o.txid ≠ lastTxid
      · rw [if_pos hw, aget_cons, if_neg (fun h2 => hne h2.symm)]
        exact hti
      · rw [if_neg hw]
        exact hti
    · intro _
      simp only [ne_eq, Option.some_inj]
      exact fun h2 => hne h2

theorem aget_nil {K V : Type} [DecidableEq K] (q : K) :
    aget ([] : List (K × V)) q = none := by
  simp only [aget]

/-- Under the grouping assumption, the txid index maps each occurring txid to
its first (smallest) output index. -/
theorem indexTxid_grouped_first (outputs : List Output) (t : Bytes) (i0 : Nat)
    (hg : GroupedByTxid outputs) (hi0 : i0 < outputs.length)
    (ht : (outputs.getD i0 dummyOutput).txid = t)
    (hfirst : ∀ j, j < i0 → (outputs.getD j dummyOutput).txid ≠ t) :
    aget (buildIndices outputs).1 t = some i0 := by
  have h := buildIndicesAux_ti_first outputs 0 none [] [] t i0 hi0 ht hfirst
    (fun j hpj hjlen hjt jj hpjj hjjle => by
      have h2 := hg i0 hi0 jj (by omega) j hjlen ⟨hpjj, hjjle, by rw [ht, hjt]⟩
      rw [h2, ht])
    (aget_nil t)
    (fun _ => by simp)
  rwa [Nat.zero_add] at h

/-- Soundness of the txid index on arbitrary (even ungrouped) inputs: every
binding points inside the output list, at an output with the bound txid. -/
theorem indexTxid_sound (outputs : List Output) (t : Bytes) (i : Nat)
    (h : aget (buildIndices outputs).1 t = some i) :
    i < outputs.length ∧ (outputs.getD i dummyOutput).txid = t := by
  refine buildIndicesAux_ti_inv
    (fun tt ii => ii < outputs.length ∧ (outputs.getD ii dummyOutput).txid = tt)
    outputs 0 none [] [] ?_ ?_ t i h
  · intro t2 i2 hcontra
    rw [aget_nil] at hcontra
    exact absurd hcontra (by simp)
  · intro j hj
    rw [Nat.zero_add]
    exact ⟨hj, rfl⟩

/-! ## Lemmas: the lookupOutput scan loop -/

theorem lookupOutput_eq_none (outputs : List Output) (t : Bytes) (v : Nat)
    (h : aget (buildIndices outputs).1 t = none) :
    lookupOutput outputs t v = Except.ok none := by
  simp [lookupOutput, h]

theorem lookupOutput_eq_scan (outputs : List Output) (t : Bytes) (v : Nat)
    (ind : Nat) (h : aget (buildIndices outputs).1 t = some ind) :
    lookupOutput outputs t v = lookupScan outputs t v ind := by
  simp [lookupOutput, h]

theorem lookupScan_finds (outputs : List Output) (t : Bytes) (v : Nat) :
    ∀ (d s m : Nat), m - s = d → s ≤ m → m < outputs.length →
      (∀ j, s ≤ j → j ≤ m → (outputs.getD j dummyOutput).txid = t) →
      (outputs.getD m dummyOutput).vout = v →
      (∀ j, s ≤ j → j < m → (outputs.getD j dummyOutput).vout ≠ v) →
      lookupScan outputs t v s = Except.ok (some m) := by
  intro d
  induction d with
  | zero =>
    intro s m hd hsm hmlen hrun hv _
    obtain rfl : s = m := by omega
    rw [lookupScan, dif_pos hmlen,
      if_neg (fun hne => hne (hrun s (Nat.le_refl s) (Nat.le_refl s))),
      if_pos hv]
  | succ d ih =>
    intro s m hd hsm hmlen hrun hv hnov
    have hslt : s < m := by omega
    rw [lookupScan, dif_pos (by omega : s < outputs.length),
      if_neg (fun hne => hne (hrun s (Nat.le_refl s) (by omega))),
      if_neg (hnov s (Nat.le_refl s) hslt),
      dif_pos (by omega : s + 1 < outputs.length),
      if_neg (fun hne => hne (hrun (s + 1) (by omega) (by omega)))]
    exact ih (s + 1) m (by omega) (by omega) hmlen
      (fun j h1 h2 => hrun j (by omega) h2) hv
      (fun j h1 h2 => hnov j (by omega) h2)

theorem lookupScan_misses (outputs : List Output) (t : Bytes) (v : Nat) :
    ∀ (d s : Nat), outputs.length - s = d → s < outputs.length →
      (outputs.getD s dummyOutput).txid = t →
      (∀ j, s ≤ j → j < outputs.length → (outputs.getD j dummyOutput).txid = t →
        (outputs.getD j dummyOutput).vout ≠ v) →
      lookupScan outputs t v s = Except.ok none := by
  intro d
  induction d with
  | zero =>
    intro s hd hs
    omega
  | succ d ih =>
    intro s hd hs hst hnov
    rw [lookupScan, dif_pos hs, if_neg (fun hne => hne hst),
      if_neg (hnov s (Nat.le_refl s) hs hst)]
    by_cases hb : s + 1 < outputs.length
    · rw [dif_pos hb]
      by_cases htx : (outputs.getD (s + 1) dummyOutput).txid = t
      · rw [if_neg (fun hne => hne htx)]
        exact ih (s + 1) (by omega) hb htx (fun j h1 h2 h3 => hnov j (by omega) h2 h3)
      · rw [if_pos htx]
    · rw [dif_neg hb]

theorem lookupScan_no_error (outputs : List Output) (t : Bytes) (v : Nat) :
    ∀ (d s : Nat), outputs.length - s = d → s < outputs.length →
      (outputs.getD s dummyOutput).txid = t →
      lookupScan outputs t v s ≠ Except.error () := by
  intro d
  induction d with
  | zero =>
    intro s hd hs
    omega
  | succ d ih =>
    intro s hd hs hst
    rw [lookupScan, dif_pos hs, if_neg (fun hne => hne hst)]
    by_cases hvv : (outputs.getD s dummyOutput).vout = v
    · rw [if_pos hvv]
      simp
    · rw [if_neg hvv]
      by_cases hb : s + 1 < outputs.length
      · rw [dif_pos hb]
        by_cases htx : (outputs.getD (s + 1) dummyOutput).txid = t
        · rw [if_neg (fun hne => hne htx)]
          exact ih (s + 1) (by omega) hb htx
        · rw [if_pos htx]
          simp
      · rw [dif_neg hb]
        simp

/-! ## Claim C2 -/

/-- C2 counterexample: on the ungrouped sequence with txids `[1]`, `[2]`,
`[1]`, the index maps txid `[1]` to index 2, not to the smallest index 0, so
the claim as stated (for arbitrary, not necessarily grouped, inputs) fails. -/
theorem c2_counterexample :
    ¬ (∀ (outputs : List Output) (t : Bytes) (i0 : Nat),
        i0 < outputs.length →
        (outputs.getD i0 dummyOutput).txid = t →
        (∀ j, j < i0 → (outputs.getD j dummyOutput).txid ≠ t) →
        aget (buildIndices outputs).1 t = some i0) := by
  intro h
  have h2 := h [exOut 1 0 none, exOut 2 0 none, exOut 1 1 none] [1] 0 (by decide)
    (by decide) (fun j hj => absurd hj (Nat.not_lt_zero j))
  have h3 : aget (buildIndices [exOut 1 0 none, exOut 2 0 none, exOut 1 1 none]).1 [1]
      = some 2 := by decide
  rw [h2] at h3
  exact absurd h3 (by decide)

/-- C2 (amended): for every input sequence in which outputs sharing a txid
are contiguous, and every txid that occurs in the outputs, `indexTxid` maps
that txid to the smallest index `i0` with `outputs[i0].txid` equal to it.
(On ungrouped inputs the code instead records the start of the last
contiguous run of that txid, see the counterexample.) -/
theorem c2_indexTxid_first (outputs : List Output) (t : Bytes) (i0 : Nat)
    (hg : GroupedByTxid outputs) (hi0 : i0 < outputs.length)
    (ht : (outputs.getD i0 dummyOutput).txid = t)
    (hfirst : ∀ j, j < i0 → (outputs.getD j dummyOutput).txid ≠ t) :
    aget (buildIndices outputs).1 t = some i0 :=
  indexTxid_grouped_first outputs t i0 hg hi0 ht hfirst

/-- Witness for C2 on a concrete grouped sequence: txid `[2]` first occurs
at index 2. -/
theorem c2_indexTxid_first_witness :
    GroupedByTxid [exOut 1 0 none, exOut 1 1 none, exOut 2 0 none, exOut 2 1 none]
    ∧ 2 < [exOut 1 0 none, exOut 1 1 none, exOut 2 0 none, exOut 2 1 none].length
    ∧ ([exOut 1 0 none, exOut 1 1 none, exOut 2 0 none, exOut 2 1 none].getD 2
        dummyOutput).txid = [2]
    ∧ aget (buildIndices
        [exOut 1 0 none, exOut 1 1 none, exOut 2 0 none, exOut 2 1 none]).1 [2] = some 2 :=
  ⟨by decide, by decide, by decide,
    c2_indexTxid_first _ [2] 2 (by decide) (by decide) (by decide) (by decide)⟩

/-! ## Claim C10 -/

/-- C10: on every input sequence (grouped or not), every txid key the index
holds maps to an in-range output whose txid is that key; consequently the
`assert` inside `lookupOutput`'s scan loop can never fail, for any queried
`(txid, vout)`. -/
theorem c10_index_sound_assert_safe (outputs : List Output) (t : Bytes) (v : Nat) :
    (∀ i, aget (buildIndices outputs).1 t = some i →
      i < outputs.length ∧ (outputs.getD i dummyOutput).txid = t)
    ∧ lookupOutput outputs t v ≠ Except.error () := by
  refine ⟨fun i h => indexTxid_sound outputs t i h, ?_⟩
  cases hidx : aget (buildIndices outputs).1 t with
  | none =>
    rw [lookupOutput_eq_none outputs t v hidx]
    simp
  | some ind =>
    obtain ⟨hlt, htx⟩ := indexTxid_sound outputs t ind hidx
    rw [lookupOutput_eq_scan outputs t v ind hidx]
    exact lookupScan_no_error outputs t v (outputs.length - ind) ind rfl hlt htx

/-! ## Claim C3 -/

/-- C3: when outputs sharing a txid are contiguous and `(txid, vout)` pairs
are unique, `lookupOutput` returns the unique matching index when one
exists, returns `None` when no output matches, and in particular returns
`None` when the txid is absent from the index. -/
theorem c3_lookupOutput_correct (outputs : List Output) (t : Bytes) (v : Nat)
    (hg : GroupedByTxid outputs) (hu : PairsUnique outputs) :
    (∀ m, m < outputs.length →
      (outputs.getD m dummyOutput).txid = t →
      (outputs.getD m dummyOutput).vout = v →
      lookupOutput outputs t v = Except.ok (some m))
    ∧ ((∀ m, m < outputs.length →
        ¬ ((outputs.getD m dummyOutput).txid = t ∧ (outputs.getD m dummyOutput).vout = v)) →
        lookupOutput outputs t v = Except.ok none)
    ∧ (aget (buildIndices outputs).1 t = none →
        lookupOutput outputs t v = Except.ok none) := by
  refine ⟨?_, ?_, fun h => lookupOutput_eq_none outputs t v h⟩
  · intro m hm hmt hmv
    have hQ : ∃ j, j < outputs.length ∧ (outputs.getD j dummyOutput).txid = t :=
      ⟨m, hm, hmt⟩
    have hQs := Nat.find_spec hQ
    have hmin : ∀ j, j < Nat.find hQ → (outputs.getD j dummyOutput).txid ≠ t :=
      fun j hj hcon => Nat.find_min hQ hj ⟨by omega, hcon⟩
    have hi0m : Nat.find hQ ≤ m := by
      by_contra hc
      exact hmin m (by omega) hmt
    have hidx := indexTxid_grouped_first outputs t (Nat.find hQ) hg hQs.1 hQs.2 hmin
    rw [lookupOutput_eq_scan outputs t v _ hidx]
    refine lookupScan_finds outputs t v (m - Nat.find hQ) (Nat.find hQ) m rfl hi0m hm
      ?_ hmv ?_
    · intro j h1 h2
      have h3 := hg (Nat.find hQ) hQs.1 j (by omega) m hm ⟨h1, h2, by rw [hQs.2, hmt]⟩
      rw [h3, hQs.2]
    · intro j h1 h2 hjv
      have hjt : (outputs.getD j dummyOutput).txid = t := by
        have h3 := hg (Nat.find hQ) hQs.1 j (by omega) m hm
          ⟨h1, by omega, by rw [hQs.2, hmt]⟩
        rw [h3, hQs.2]
      have := hu j (by omega) m hm (by rw [hjt, hmt]) (by rw [hjv, hmv])
      omega
  · intro hno
    by_cases hocc : ∃ j, j < outputs.length ∧ (outputs.getD j dummyOutput).txid = t
    · have hQs := Nat.find_spec hocc
      have hmin : ∀ j, j < Nat.find hocc → (outputs.getD j dummyOutput).txid ≠ t :=
        fun j hj hcon => Nat.find_min hocc hj ⟨by omega, hcon⟩
      have hidx := indexTxid_grouped_first outputs t (Nat.find hocc) hg hQs.1 hQs.2 hmin
      rw [lookupOutput_eq_scan outputs t v _ hidx]
      refine lookupScan_misses outputs t v (outputs.length - Nat.find hocc)
        (Nat.find hocc) rfl hQs.1 hQs.2 ?_
      intro j h1 h2 h3 h4
      exact hno j h2 ⟨h3, h4⟩
    · push_neg at hocc
      refine lookupOutput_eq_none outputs t v ?_
      exact buildIndicesAux_ti_absent outputs 0 none [] [] t (aget_nil t)
        (fun j hj h2 => hocc j hj h2)

/-- Witness for C3 on a concrete grouped, pair-unique sequence. -/
theorem c3_lookupOutput_correct_witness :
    GroupedByTxid [exOut 1 0 none, exOut 1 1 none, exOut 2 0 none]
    ∧ PairsUnique [exOut 1 0 none, exOut 1 1 none, exOut 2 0 none]
    ∧ lookupOutput [exOut 1 0 none, exOut 1 1 none, exOut 2 0 none] [1] 1
        = Except.ok (some 1) :=
  ⟨by decide, by decide,
    (c3_lookupOutput_correct [exOut 1 0 none, exOut 1 1 none, exOut 2 0 none] [1] 1
      (by decide) (by decide)).1 1 (by decide) (by decide) (by decide)⟩

/-! ## Lemmas: the address index -/

theorem buildIndicesAux_ai_getD :
    ∀ (rest : List Output) (ind : Nat) (lastTxid : Option Bytes)
      (ti : List (Bytes × Nat)) (ai : List (String × List Nat)) (a : String),
      (aget (buildIndicesAux rest ind lastTxid ti ai).2 a).getD [] =
        (aget ai a).getD [] ++ addrIndices rest ind a
  | [], _, _, _, ai, a => by simp [buildIndicesAux, addrIndices]
  | o :: rest, ind, lastTxid, ti, ai, a => by
    rw [buildIndicesAux_cons]
    rcases haddr : o.address with _ | a2
    · simp only [haddr]
      rw [buildIndicesAux_ai_getD rest (ind + 1) _ _ _ a]
      simp [addrIndices, haddr]
    · simp only [haddr]
      by_cases he : a = a2
      · subst he
        rw [buildIndicesAux_ai_getD rest (ind + 1) _ _ _ a, aget_cons, if_pos rfl]
        simp [addrIndices, haddr]
      · rw [buildIndicesAux_ai_getD rest (ind + 1) _ _ _ a, aget_cons, if_neg he]
        have hne : ¬ o.address = some a := by
          rw [haddr]
          simp
          exact fun h2 => he h2.symm
        simp [addrIndices, hne]

theorem addrIndices_mem :
    ∀ (rest : List Output) (ind : Nat) (a : String) (i : Nat),
      i ∈ addrIndices rest ind a ↔
        ∃ j, j < rest.length ∧ i = ind + j ∧
          (rest.getD j dummyOutput).address = some a
  | [], _, _, _ => by simp [addrIndices]
  | o :: rest, ind, a, i => by
    simp only [addrIndices, List.mem_append]
    rw [addrIndices_mem rest (ind + 1) a i]
    constructor
    · rintro (h | ⟨j, hj, rfl, hja⟩)
      · by_cases hoa : o.address = some a
        · rw [if_pos hoa] at h
          simp only [List.mem_singleton] at h
          subst h
          exact ⟨0, by simp, by omega, by simpa using hoa⟩
        · rw [if_neg hoa] at h
          simp at h
      · exact ⟨j + 1, by simp only [List.length_cons]; omega, by omega,
          by simpa using hja⟩
    · rintro ⟨j, hj, rfl, hja⟩
      cases j with
      | zero =>
        left
        rw [if_pos (by simpa using hja)]
        simp
      | succ jq =>
        right
        rw [List.getD_cons_succ] at hja
        exact ⟨jq, by simp only [List.length_cons] at hj; omega, by omega, hja⟩

theorem addrIndices_bounds_sorted :
    ∀ (rest : List Output) (ind : Nat) (a : String),
      (addrIndices rest ind a).Pairwise (· < ·) ∧
        ∀ x ∈ addrIndices rest ind a, ind ≤ x
  | [], _, _ => by simp [addrIndices]
  | o :: rest, ind, a => by
    obtain ⟨hp, hb⟩ := addrIndices_bounds_sorted rest (ind + 1) a
    simp only [addrIndices]
    constructor
    · rw [List.pairwise_append]
      refine ⟨by split <;> simp, hp, ?_⟩
      intro x hx y hy
      have h1 : x = ind := by
        by_cases h : o.address = some a
        · rw [if_pos h] at hx
          simpa using hx
        · rw [if_neg h] at hx
          simp at hx
      have h2 := hb y hy
      omega
    · intro x hx
      rcases List.mem_append.mp hx with h | h
      · have h1 : x = ind := by
          by_cases h2 : o.address = some a
          · rw [if_pos h2] at h
            simpa using h
          · rw [if_neg h2] at h
            simp at h
        omega
      · have := hb x h
        omega

/-! ## Claim C8 -/

/-- C8: for every address string, `lookupAddress` returns exactly the
indices of the outputs carrying that address — membership iff the output at
that index has the address, listed in strictly increasing encounter order —
and the empty list when no output has that address. -/
theorem c8_lookupAddress_exact (outputs : List Output) (a : String) :
    (∀ i, i ∈ lookupAddress outputs a ↔
      (i < outputs.length ∧ (outputs.getD i dummyOutput).address = some a))
    ∧ (lookupAddress outputs a).Pairwise (· < ·)
    ∧ ((∀ i, i < outputs.length → (outputs.getD i dummyOutput).address ≠ some a) →
        lookupAddress outputs a = []) := by
  have hbase : lookupAddress outputs a = addrIndices outputs 0 a := by
    rw [lookupAddress, buildIndices, buildIndicesAux_ai_getD]
    rw [aget_nil]
    rfl
  have hmem : ∀ i, i ∈ lookupAddress outputs a ↔
      (i < outputs.length ∧ (outputs.getD i dummyOutput).address = some a) := by
    intro i
    rw [hbase, addrIndices_mem]
    constructor
    · rintro ⟨j, hj, rfl, hja⟩
      rw [Nat.zero_add]
      exact ⟨hj, hja⟩
    · intro h
      exact ⟨i, h.1, by omega, h.2⟩
  refine ⟨hmem, ?_, ?_⟩
  · rw [hbase]
    exact (addrIndices_bounds_sorted outputs 0 a).1
  · intro hno
    rw [List.eq_nil_iff_forall_not_mem]
    intro x hx
    obtain ⟨h1, h2⟩ := (hmem x).mp hx
    exact hno x h1 h2

/-! ## Lemmas: big-endian packing -/

theorem beBytes_length : ∀ (w v : Nat), (beBytes w v).length = w
  | 0, _ => rfl
  | w + 1, v => by simp [beBytes, beBytes_length w]

theorem fromBE_append (bs : Bytes) (b : Nat) :
    fromBE (bs ++ [b]) = fromBE bs * 256 + b := by
  simp [fromBE, List.foldl_append]

theorem fromBE_beBytes : ∀ (w v : Nat), fromBE (beBytes w v) = v % 256 ^ w
  | 0, v => by simp [beBytes, fromBE, Nat.mod_one]
  | w + 1, v => by
    rw [beBytes, fromBE_append, fromBE_beBytes w]
    have hposw : 0 < 256 ^ w := Nat.pos_pow_of_pos w (by omega)
    have hql : v / 256 % 256 ^ w < 256 ^ w := Nat.mod_lt _ hposw
    have hlt : v % 256 < 256 := Nat.mod_lt v (by omega)
    have hM : 256 ≤ 256 * 256 ^ w := by
      calc (256 : Nat) = 256 * 1 := by omega
      _ ≤ 256 * 256 ^ w := Nat.mul_le_mul_left 256 hposw
    have key : v % 256 ^ (w + 1) = 256 * (v / 256 % 256 ^ w) + v % 256 := by
      calc v % 256 ^ (w + 1)
          = (256 * (v / 256) + v % 256) % (256 * 256 ^ w) := by
            rw [Nat.div_add_mod, Nat.pow_succ, Nat.mul_comm (256 ^ w) 256]
        _ = ((256 * (v / 256)) % (256 * 256 ^ w) + (v % 256) % (256 * 256 ^ w))
              % (256 * 256 ^ w) := Nat.add_mod _ _ _
        _ = (256 * (v / 256 % 256 ^ w) + v % 256) % (256 * 256 ^ w) := by
            rw [Nat.mul_mod_mul_left,
              Nat.mod_eq_of_lt (show v % 256 < 256 * 256 ^ w by omega)]
        _ = 256 * (v / 256 % 256 ^ w) + v % 256 := by
            refine Nat.mod_eq_of_lt ?_
            calc 256 * (v / 256 % 256 ^ w) + v % 256
                < 256 * (v / 256 % 256 ^ w) + 256 := by omega
              _ = 256 * (v / 256 % 256 ^ w + 1) := by ring
              _ ≤ 256 * 256 ^ w := Nat.mul_le_mul_left 256 (by omega)
    rw [key]
    ring

/-! ## Claim C5 -/

/-- C5: the leaf digest of an output is keccak-256 of the packed
concatenation of `txid` (32 bytes) ++ `vout` (32-byte big-endian) ++
`amount` (32-byte big-endian) ++ `pubkeyhash` (20 bytes), 116 bytes in
total; the two numeric fields really are 32-byte big-endian encodings
(length 32, decoding back to the value mod 2^256). -/
theorem c5_leaf_hash_encoding (keccak : Bytes → Bytes) (o : Output) :
    computeLeafHash keccak o
      = keccak (o.txid ++ beBytes 32 o.vout ++ beBytes 32 o.amount ++ o.pubkeyhash)
    ∧ (beBytes 32 o.vout).length = 32
    ∧ fromBE (beBytes 32 o.vout) = o.vout % 2 ^ 256
    ∧ (beBytes 32 o.amount).length = 32
    ∧ fromBE (beBytes 32 o.amount) = o.amount % 2 ^ 256
    ∧ (o.txid.length = 32 → o.pubkeyhash.length = 20 →
        (leafPreimage o).length = 116) := by
  have h256 : (256 : Nat) ^ 32 = 2 ^ 256 := by
    calc (256 : Nat) ^ 32 = (2 ^ 8) ^ 32 := by norm_num
      _ = 2 ^ (8 * 32) := (Nat.pow_mul 2 8 32).symm
      _ = 2 ^ 256 := by norm_num
  refine ⟨rfl, beBytes_length 32 _, by rw [fromBE_beBytes, h256],
    beBytes_length 32 _, by rw [fromBE_beBytes, h256], ?_⟩
  intro h1 h2
  simp [leafPreimage, beBytes_length, h1, h2]

/-! ## Claim C6 -/

/-- C6: `signClaim` fails with the key-mismatch error if and only if
neither the compressed nor the uncompressed serialization of the public key
derived from the decoded private key has a hash160 equal to the target
output's pubkeyhash, and in that failure case no signature (or partial
result) is returned. -/
theorem signClaim_eq (c : Crypto) (outputs : List Output) (index : Nat)
    (wif recipient verifyingContract : String) (chainId : Nat) (priv : Bytes)
    (hwif : c.wifDecode wif = some priv) :
    signClaim c outputs index wif recipient verifyingContract chainId =
      if (hash160 c ((c.pubkeyFromSecret priv).fmt true)
            = (outputs.getD index dummyOutput).pubkeyhash
          ∨ hash160 c ((c.pubkeyFromSecret priv).fmt false)
            = (outputs.getD index dummyOutput).pubkeyhash)
      then Except.ok ((c.pubkeyFromSecret priv).point.1,
        (c.pubkeyFromSecret priv).point.2,
        c.signTypedData
          { name := "ChiMigration", version := "1", chainId := chainId,
            verifyingContract := verifyingContract,
            txid := (outputs.getD index dummyOutput).txid,
            vout := (outputs.getD index dummyOutput).vout,
            recipient := recipient }
          priv)
      else Except.error ClaimError.keyMismatch := by
  unfold signClaim
  rw [hwif]

theorem c6_signClaim_key_mismatch (c : Crypto) (outputs : List Output)
    (index : Nat) (wif recipient verifyingContract : String) (chainId : Nat)
    (priv : Bytes) (hwif : c.wifDecode wif = some priv)
    (hidx : index < outputs.length) :
    (signClaim c outputs index wif recipient verifyingContract chainId
        = Except.error ClaimError.keyMismatch
      ↔ (hash160 c ((c.pubkeyFromSecret priv).fmt true)
            ≠ (outputs.getD index dummyOutput).pubkeyhash
        ∧ hash160 c ((c.pubkeyFromSecret priv).fmt false)
            ≠ (outputs.getD index dummyOutput).pubkeyhash))
    ∧ (∀ res, signClaim c outputs index wif recipient verifyingContract chainId
        = Except.error ClaimError.keyMismatch →
        signClaim c outputs index wif recipient verifyingContract chainId
          ≠ Except.ok res) := by
  constructor
  · by_cases hf : (hash160 c ((c.pubkeyFromSecret priv).fmt true)
          = (outputs.getD index dummyOutput).pubkeyhash
        ∨ hash160 c ((c.pubkeyFromSecret priv).fmt false)
          = (outputs.getD index dummyOutput).pubkeyhash)
    · have hne : signClaim c outputs index wif recipient verifyingContract chainId
          ≠ Except.error ClaimError.keyMismatch := by
        rw [signClaim_eq c outputs index wif recipient verifyingContract chainId
          priv hwif, if_pos hf]
        simp
      constructor
      · intro h
        exact absurd h hne
      · rintro ⟨h1, h2⟩
        rcases hf with h | h
        · exact absurd h h1
        · exact absurd h h2
    · have heq : signClaim c outputs index wif recipient verifyingContract chainId
          = Except.error ClaimError.keyMismatch := by
        rw [signClaim_eq c outputs index wif recipient verifyingContract chainId
          priv hwif, if_neg hf]
      push_neg at hf
      exact ⟨fun _ => hf, fun _ => heq⟩
  · intro res h1 h2
    rw [h1] at h2
    exact absurd h2 (by simp)

/-- Witness for C6 at a concrete crypto instance: the sample key does not
hash to the sample output's pubkeyhash, so the call fails with the
key-mismatch error and returns nothing else. -/
theorem c6_signClaim_key_mismatch_witness :
    testCrypto.wifDecode "key" = some [5]
    ∧ 0 < [exOut 1 0 none].length
    ∧ ((signClaim testCrypto [exOut 1 0 none] 0 "key" "rcpt" "contract" 7
          = Except.error ClaimError.keyMismatch
        ↔ (hash160 testCrypto ((testCrypto.pubkeyFromSecret [5]).fmt true)
              ≠ ([exOut 1 0 none].getD 0 dummyOutput).pubkeyhash
          ∧ hash160 testCrypto ((testCrypto.pubkeyFromSecret [5]).fmt false)
              ≠ ([exOut 1 0 none].getD 0 dummyOutput).pubkeyhash))
      ∧ (∀ res, signClaim testCrypto [exOut 1 0 none] 0 "key" "rcpt" "contract" 7
          = Except.error ClaimError.keyMismatch →
          signClaim testCrypto [exOut 1 0 none] 0 "key" "rcpt" "contract" 7
            ≠ Except.ok res)) :=
  ⟨by decide, by decide,
    c6_signClaim_key_mismatch testCrypto [exOut 1 0 none] 0 "key" "rcpt" "contract" 7
      [5] (by decide) (by decide)⟩

/-! ## Claim C7 -/

/-- C7 counterexample: a perfectly well-formed base58check address exists
whose payload hash160 is 20 zero bytes; the p2pkh decoder returns it like
any other hash, so a *standard* output can carry the all-zero pubkeyhash
and the claimed "all-zero iff nonstandard" equivalence fails. -/
theorem c7_counterexample :
    ¬ (∀ (d : Decoders) (row : Row) (o : Output),
        processRow d row = some o →
        (o.pubkeyhash = List.replicate 20 0 ↔
          row.type ∉ (["p2pk", "p2pkh", "p2wpkh"] : List String))) := by
  intro hclaim
  have h := hclaim testDecoders
    { type := "p2pkh", address := "zeroaddr", txid := "aa", vout := "0", amount := "5" }
    { txid := List.replicate 32 4, vout := 11, amount := 11,
      pubkeyhash := List.replicate 20 0, address := some "zeroaddr" }
    (by decide)
  have h2 := h.mp (by decide)
  exact h2 (by decide)

/-- C7 (amended): nonstandard rows (type outside p2pk/p2pkh/p2wpkh) get a
20-zero-byte pubkeyhash and no address; standard rows keep their original
address string and get the pubkeyhash their address decodes to — which is
all-zero exactly when the address itself decodes to the zero hash160.  The
address field is absent if and only if the output is nonstandard. -/
theorem c7_processRow_normalization (d : Decoders) (row : Row) (o : Output)
    (h : processRow d row = some o) :
    ((row.type ∉ (["p2pk", "p2pkh", "p2wpkh"] : List String)) →
      o.pubkeyhash = List.replicate 20 0 ∧ o.address = none)
    ∧ (row.type ∈ (["p2pk", "p2pkh", "p2wpkh"] : List String) →
        o.address = some row.address)
    ∧ ((row.type = "p2pk" ∨ row.type = "p2pkh") →
        d.p2pkhDecode row.address = some o.pubkeyhash)
    ∧ (row.type = "p2wpkh" → d.p2wpkhDecode row.address = some o.pubkeyhash)
    ∧ (o.address = none ↔ row.type ∉ (["p2pk", "p2pkh", "p2wpkh"] : List String)) := by
  by_cases h1 : row.type = "p2pk" ∨ row.type = "p2pkh"
  · have hmem : row.type ∈ (["p2pk", "p2pkh", "p2wpkh"] : List String) := by
      rcases h1 with h2 | h2 <;> simp [h2]
    rw [processRow, if_pos h1] at h
    rcases hdec : d.p2pkhDecode row.address with _ | pkh
    · rw [hdec] at h
      exact absurd h (by simp)
    · rw [hdec] at h
      rw [Option.map_some'] at h
      obtain rfl := Option.some.inj h
      refine ⟨fun hn => absurd hmem hn, fun _ => rfl, fun _ => rfl, ?_, ?_⟩
      · intro h2
        rcases h1 with h3 | h3 <;> rw [h2] at h3 <;> exact absurd h3 (by decide)
      · simp [hmem]
  · by_cases h2 : row.type = "p2wpkh"
    · have hmem : row.type ∈ (["p2pk", "p2pkh", "p2wpkh"] : List String) := by
        simp [h2]
      rw [processRow, if_neg h1, if_pos h2] at h
      rcases hdec : d.p2wpkhDecode row.address with _ | pkh
      · rw [hdec] at h
        exact absurd h (by simp)
      · rw [hdec] at h
        rw [Option.map_some'] at h
        obtain rfl := Option.some.inj h
        refine ⟨fun hn => absurd hmem hn, fun _ => rfl, ?_, fun _ => rfl, ?_⟩
        · intro h3
          rcases h3 with h3 | h3 <;> rw [h3] at h2 <;> exact absurd h2 (by decide)
        · simp [hmem]
    · have hnmem : row.type ∉ (["p2pk", "p2pkh", "p2wpkh"] : List String) := by
        simp only [List.mem_cons, List.mem_singleton, List.not_mem_nil]
        push_neg
        exact ⟨fun h3 => h1 (Or.inl h3), fun h3 => h1 (Or.inr h3), h2, by simp⟩
      rw [processRow, if_neg h1, if_neg h2] at h
      obtain rfl := Option.some.inj h
      refine ⟨fun _ => ⟨rfl, rfl⟩, fun hmem => absurd hmem hnmem,
        fun h3 => absurd h3 h1, fun h3 => absurd h3 h2, by simp [hnmem]⟩

/-- Witness for C7 on a concrete nonstandard (p2sh) row. -/
theorem c7_processRow_normalization_witness :
    processRow testDecoders
      { type := "p2sh", address := "s", txid := "aa", vout := "0", amount := "5" }
      = some { txid := List.replicate 32 4, vout := 11, amount := 11,
               pubkeyhash := List.replicate 20 0, address := none }
    ∧ (("p2sh" : String) ∉ (["p2pk", "p2pkh", "p2wpkh"] : List String) →
        ({ txid := List.replicate 32 4, vout := 11, amount := 11,
           pubkeyhash := List.replicate 20 0, address := none } : Output).pubkeyhash
            = List.replicate 20 0
        ∧ ({ txid := List.replicate 32 4, vout := 11, amount := 11,
             pubkeyhash := List.replicate 20 0, address := none } : Output).address
            = none) :=
  ⟨by decide,
    (c7_processRow_normalization testDecoders
      { type := "p2sh", address := "s", txid := "aa", vout := "0", amount := "5" }
      { txid := List.replicate 32 4, vout := 11, amount := 11,
        pubkeyhash := List.replicate 20 0, address := none } (by decide)).1⟩

end ChiMigration
